import Mathlib

/-!
Verification of the core of `sql_dependency_graph` (`graph.py`) against its
specification.

Modeling conventions (shallow embedding):
- Python strings (SQL text, filesystem paths, artifact identifiers) are
  `List Char`.
- `_get_dependencies`'s regex scan is embedded as an explicit left-to-right
  scanner (`scanAux`) implementing exactly the semantics of
  `(?i)\b(?:FROM|TABLE|INTO|JOIN|UPDATE|DELETE)\s+[`"](.*?)[`"]` under
  `re.findall`: leftmost non-overlapping matches, a word boundary before the
  keyword, greedy `\s+`, a lazy capture that cannot cross a newline, and a
  closing delimiter that is the first `"` or backtick after the opening one.
  The character classes `\w` and `\s` are modeled by their ASCII portions.
- Python's `str.replace(old, "")`, `str.find`-style scanning of
  `re.findall(f"{sql_dir}/(.*)", path)` (the directory prefix is treated as
  literal text, and `(.*)` stops at a newline), and `dict` semantics
  (insertion order, last-value-wins on duplicate keys) are embedded by
  structurally recursive functions below.
- The filesystem is an explicit association list of (path, file text) pairs;
  `Path.rglob` order is the list order.
- Python exceptions become `Except`/error values: the `AssertionError` of
  `_convert_path_to_artifact` is the spec's PathResolutionError, the
  `assert` on `relationship` is InvalidRelationship, and the
  `NotImplementedError` for a missing root is MissingRootArtifact.
-/

/-! ## Dependency extractor (`_get_dependencies`) -/

def isWordChar (c : Char) : Bool := c.isAlphanum || c = '_'

def isSpaceChar (c : Char) : Bool :=
  c = ' ' || c = '\t' || c = '\n' || c = '\r' || c = '\x0b' || c = '\x0c'

def isDelimChar (c : Char) : Bool := c = '"' || c = '`'

def keywordList : List (List Char) :=
  [("FROM").toList, ("TABLE").toList, ("INTO").toList, ("JOIN").toList,
   ("UPDATE").toList, ("DELETE").toList]

/-- Case-insensitive keyword strip: if the upper-cased input starts with `k`,
return the rest of the input. -/
def stripPrefixCI : List Char → List Char → Option (List Char)
  | [], l => some l
  | _ :: _, [] => none
  | k :: ks, c :: cs => if c.toUpper = k then stripPrefixCI ks cs else none

def stripAnyKeyword : List (List Char) → List Char → Option (List Char)
  | [], _ => none
  | k :: ks, l =>
    match stripPrefixCI k l with
    | some r => some r
    | none => stripAnyKeyword ks l

/-- The lazy capture `(.*?)[`"]`: the shortest run of non-newline characters
up to the first delimiter character, together with the input after the
closing delimiter. -/
def captureTail : List Char → Option (List Char × List Char)
  | [] => none
  | c :: r =>
    if isDelimChar c then some ([], r)
    else if c = '\n' then none
    else
      match captureTail r with
      | some (e, rest) => some (c :: e, rest)
      | none => none

/-- A regex match starting exactly at the head of `l` (the word boundary is
checked by the caller): keyword, then one-or-more whitespace, then an opening
delimiter, then the lazy capture. -/
def matchAt (l : List Char) : Option (List Char × List Char) :=
  match stripAnyKeyword keywordList l with
  | none => none
  | some l1 =>
    match l1 with
    | [] => none
    | c :: r =>
      if isSpaceChar c then
        match r.dropWhile isSpaceChar with
        | [] => none
        | d :: r2 => if isDelimChar d then captureTail r2 else none
      else none

/-- Left-to-right scan of `re.findall`: try a match at each position (skipping
positions where the word boundary fails), and continue after the end of each
match.  `prevW` records whether the previous character was a word character.
The fuel argument only forces termination; it is always instantiated with the
input length, which every step decreases by at least one. -/
def scanAux : Nat → Bool → List Char → List (List Char)
  | 0, _, _ => []
  | _ + 1, _, [] => []
  | f + 1, prevW, c :: r =>
    if prevW then scanAux f (isWordChar c) r
    else
      match matchAt (c :: r) with
      | some (e, rest) => e :: scanAux f false rest
      | none => scanAux f (isWordChar c) r

/-- `_get_dependencies`: all captures, de-duplicated (`list(set(...))`). -/
def getDependencies (sql : List Char) : List (List Char) :=
  (scanAux sql.length false sql).dedup

/-- Specification-side predicate (from the spec's words, §4.2/§8): `e` occurs
in `t` preceded by one of the six keywords as a whole word (case-insensitive)
followed by whitespace, enclosed between two delimiter characters.  With
`matched := true` the two delimiters are additionally required to be equal
(the spec's "pair of matching delimiters"); with `matched := false` each may
independently be `"` or a backtick. -/
def specPreceded (matched : Bool) (t e : List Char) : Prop :=
  ∃ pre kw ws d1 d2 post,
    t = pre ++ kw ++ ws ++ d1 :: (e ++ d2 :: post) ∧
    (pre = [] ∨ ∃ c, pre.getLast? = some c ∧ isWordChar c = false) ∧
    kw.map Char.toUpper ∈ keywordList ∧
    ws ≠ [] ∧ (∀ c ∈ ws, isSpaceChar c = true) ∧
    isDelimChar d1 = true ∧ isDelimChar d2 = true ∧
    (matched = true → d1 = d2)

/-! ## Artifact identifier resolver (`_convert_path_to_artifact`) -/

def charReplace (a b : Char) (l : List Char) : List Char :=
  l.map (fun c => if c = a then b else c)

/-- Python `str.replace(old, "")` for a nonempty pattern `p :: ps`: scan left
to right, removing each non-overlapping occurrence and continuing after it.
The fuel argument is always the input length, which bounds the recursion. -/
def removeAllAux (p : Char) (ps : List Char) : Nat → List Char → List Char
  | 0, l => l
  | _ + 1, [] => []
  | f + 1, c :: r =>
    if (p :: ps).isPrefixOf (c :: r) then removeAllAux p ps f (r.drop ps.length)
    else c :: removeAllAux p ps f r

def removeAll (p : Char) (ps : List Char) (l : List Char) : List Char :=
  removeAllAux p ps l.length l

def tableTail : List Char := ("table").toList

def sqlTail : List Char := ("sql").toList

/-- `str(PurePosixPath(p))`: split on `/`, drop empty and `.` components
(`..` is kept), remember whether the path was absolute (exactly two leading
slashes are preserved, per POSIX), join back without a trailing slash; the
empty relative path renders as `.`.  Both arguments of
`_convert_path_to_artifact` pass through this before the `findall`. -/
def splitOnSlash : List Char → List (List Char)
  | [] => [[]]
  | c :: r =>
    let rest := splitOnSlash r
    if c = '/' then [] :: rest
    else
      match rest with
      | [] => [[c]]
      | h :: t => (c :: h) :: t

def normPath (p : List Char) : List Char :=
  let comps := (splitOnSlash p).filter (fun s => decide (s ≠ [] ∧ s ≠ ['.']))
  let rootPart : List Char :=
    if p.take 2 = ['/', '/'] ∧ p.take 3 ≠ ['/', '/', '/'] then ['/', '/']
    else if p.take 1 = ['/'] then ['/']
    else []
  if rootPart = [] ∧ comps = [] then ['.']
  else rootPart ++ List.intercalate ['/'] comps

/-- One pattern character of the interpolated `f"{sql_dir}/(.*)"` regex.  The
scan directory is interpolated unescaped, so a `.` inside it is the regex
wildcard (any character except newline); every other character is modeled as
matching itself literally, which is faithful exactly when the directory
contains none of the remaining regex metacharacters (see `dirRegexSafe`). -/
def reCharMatches (pc c : Char) : Bool := if pc = '.' then c ≠ '\n' else pc = c

/-- Match the directory pattern against a prefix of the text, returning the
rest of the text.  The pattern is fixed-length (literal characters and `.`
wildcards only), so matching is deterministic, with no backtracking. -/
def reMatchesAt : List Char → List Char → Option (List Char)
  | [], l => some l
  | _ :: _, [] => none
  | pc :: ps, c :: cs => if reCharMatches pc c then reMatchesAt ps cs else none

/-- The regex metacharacters this model does not interpret (everything
special except `.`, which `reCharMatches` models).  A scan directory is
modeled faithfully iff it contains none of these. -/
def regexMeta (c : Char) : Bool :=
  c = '\\' || c = '+' || c = '*' || c = '?' || c = '[' || c = ']' || c = '(' ||
    c = ')' || c = '\x7b' || c = '\x7d' || c = '|' || c = '^' || c = '$'

def dirRegexSafe (d : List Char) : Bool := d.all (fun c => !(regexMeta c))

/-- `re.findall(f"{sql_dir}/(.*)", path)[0]`: the capture of the first
(leftmost) occurrence of the directory pattern (with `.` as a wildcard)
followed by `/` and the rest of its line (`.*` does not cross a newline), or
`none` when the pattern matches nowhere. -/
def findCapture (pat : List Char) : List Char → Option (List Char)
  | [] => none
  | c :: r =>
    match reMatchesAt pat (c :: r) with
    | some rest => some (rest.takeWhile (fun ch => ch != '\n'))
    | none => findCapture pat r

/-- Does the directory pattern match anywhere in the text? -/
def containsMatch (pat : List Char) : List Char → Bool
  | [] => (reMatchesAt pat []).isSome
  | c :: r => (reMatchesAt pat (c :: r)).isSome || containsMatch pat r

/-- `_convert_path_to_artifact`: normalize both arguments through `Path`,
search the path for `str(sql_dir) + "/"` (the directory interpolated
unescaped into the regex), take the first capture, then
`.replace("/", ".").replace(".table", "").replace(".sql", "")`.
The `AssertionError` (the spec's PathResolutionError) is `Except.error ()`. -/
def convertPathToArtifact (sqlDir artifactPath : List Char) : Except Unit (List Char) :=
  match findCapture (normPath sqlDir ++ ['/']) (normPath artifactPath) with
  | none => Except.error ()
  | some captured =>
    Except.ok (removeAll '.' sqlTail (removeAll '.' tableTail (charReplace '/' '.' captured)))

/-- Spec-side notion (from the spec's words, §4.1/§7): the path is located
under the scan directory, i.e. the directory (as a normalized path) followed
by `/` is a leading prefix of the normalized path. -/
def pathIsUnder (sqlDir p : List Char) : Bool :=
  (normPath sqlDir ++ ['/']).isPrefixOf (normPath p)

/-- Literal substring occurrence, the semantics of Python `str.replace`'s
search (used for the `.table` / `.sql` removals, which are not regexes). -/
def containsSub (pat : List Char) : List Char → Bool
  | [] => pat.isEmpty
  | c :: r => pat.isPrefixOf (c :: r) || containsSub pat r

/-- Spec-side reconstruction (§8): prefix the scan directory, turn `.` back
into `/`, append `.sql`. -/
def reconstructPath (sqlDir a : List Char) : List Char :=
  sqlDir ++ '/' :: (charReplace '.' '/' a ++ (".sql").toList)

/-- The pure text transformation the resolver applies to the portion of the
path after `sql_dir + "/"` (assuming it contains no newline). -/
def resolveRel (rel : List Char) : List Char :=
  removeAll '.' sqlTail (removeAll '.' tableTail (charReplace '/' '.' rel))

/-! ## Graph builder (`create_dependency_graph` and helpers) -/

abbrev Artifact := List Char

abbrev DependencyGraph := List (Artifact × List Artifact)

/-- Python `dict` lookup on an insertion-ordered association list (all
dictionaries built below have unique keys). -/
def dictGet {β : Type} : List (Artifact × β) → Artifact → Option β
  | [], _ => none
  | (k, v) :: r, a => if k = a then some v else dictGet r a

/-- Python `dict` assignment `d[k] = v`: overwrite in place, else append. -/
def dictInsert {β : Type} (k : Artifact) (v : β) :
    List (Artifact × β) → List (Artifact × β)
  | [] => [(k, v)]
  | (k2, v2) :: r => if k2 = k then (k, v) :: r else (k2, v2) :: dictInsert k v r

/-- `defaultdict(list)` access-and-append: `d[k].append(x)`. -/
def dictAppend (k : Artifact) (x : Artifact) : DependencyGraph → DependencyGraph
  | [] => [(k, [x])]
  | (k2, v2) :: r => if k2 = k then (k2, v2 ++ [x]) :: r else (k2, v2) :: dictAppend k x r

/-- The filesystem snapshot: each discovered path mapped to its text;
`open(path).read()`. -/
def fileText (files : List (List Char × List Char)) (p : List Char) : List Char :=
  (files.lookup p).getD []

/-- `_get_path_lookup`'s dict comprehension
`{_convert_path_to_artifact(sql_dir, p): p for p in sql_paths}`, built in
`rglob` order with `dict` overwrite semantics; the first failing conversion
aborts with the resolver's error. -/
def buildPathLookup (sqlDir : List Char) (acc : List (Artifact × List Char)) :
    List (List Char) → Except Unit (List (Artifact × List Char))
  | [] => Except.ok acc
  | p :: rest =>
    match convertPathToArtifact sqlDir p with
    | Except.error e => Except.error e
    | Except.ok a => buildPathLookup sqlDir (dictInsert a p acc) rest

inductive BuildError where
  | invalidRelationship
  | missingRootArtifact
  | pathResolution
deriving DecidableEq

/-- `_create_dependency_graph_helper`.  The `NotImplementedError` branch is
unreachable from `create_dependency_graph` (which validates `relationship`
first) and is modeled as the identity. -/
def createDependencyGraphHelper (artifact : Artifact) (dependencies : List Artifact)
    (g : DependencyGraph) (relationship : List Char) : DependencyGraph :=
  if relationship = ("parent").toList then
    dependencies.foldl (fun acc d => dictAppend d artifact acc) g
  else if relationship = ("dependency").toList then
    dictInsert artifact dependencies g
  else g

/-! ## Subgraph extractor (`_create_dependency_subgraph`) -/

/-- The `while lookup_artifacts:` loop of `_create_dependency_subgraph`, with
an explicit fuel bound.  State: the frontier `lookup_artifacts` (a Python
set, kept as a duplicate-free list; `pop` takes the head), the accumulator
`subgraph_artifacts`, and `visited`.  Note that `visited` is updated only
after the frontier, exactly as in the source, so an artifact whose
dependency list contains itself re-enters the frontier once.  Returns `none`
if the fuel runs out while the frontier is nonempty; the termination theorem
shows this never happens for the fuel used below. -/
def subgraphLoop (g : DependencyGraph) : Nat → List Artifact → List Artifact →
    List Artifact → Option (List Artifact × List Artifact)
  | _, [], subArts, visited => some (subArts, visited)
  | 0, _ :: _, _, _ => none
  | f + 1, a :: rest, subArts, visited =>
    match dictGet g a with
    | some deps =>
      subgraphLoop g f
        (rest ++ deps.dedup.filter (fun d => !(decide (d ∈ visited)) && !(decide (d ∈ rest))))
        (subArts ++ deps) (a :: visited)
    | none => subgraphLoop g f rest (subArts ++ [a]) (a :: visited)

/-- Every artifact mentioned in the graph, plus the root: an upper bound for
the artifacts the traversal can ever touch. -/
def mentionedArtifacts (g : DependencyGraph) (root : Artifact) : List Artifact :=
  root :: g.foldr (fun p acc => p.1 :: (p.2 ++ acc)) []

/-- Fuel for the loop: two iterations per distinct mentioned artifact (each
artifact is popped at most twice; see the C8 theorems). -/
def subgraphFuel (g : DependencyGraph) (root : Artifact) : Nat :=
  2 * (mentionedArtifacts g root).dedup.length

def runSubgraphLoop (g : DependencyGraph) (root : Artifact) :
    Option (List Artifact × List Artifact) :=
  subgraphLoop g (subgraphFuel g root) [root] [root] []

/-- The final dict comprehension
`{a: dependency_graph[a] for a in subgraph_artifacts if a in dependency_graph.keys()}`. -/
def buildSubgraphDict (g : DependencyGraph) (arts : List Artifact) : DependencyGraph :=
  ((arts.filter (fun x => (dictGet g x).isSome)).dedup).map
    (fun x => (x, (dictGet g x).getD []))

def createDependencySubgraph (g : DependencyGraph) (root : Artifact) : DependencyGraph :=
  match runSubgraphLoop g root with
  | some (subArts, _) => buildSubgraphDict g subArts
  | none => []

/-- The visited set of `_create_dependency_subgraph`'s traversal. -/
def finalVisited (g : DependencyGraph) (root : Artifact) : List Artifact :=
  match runSubgraphLoop g root with
  | some (_, visited) => visited
  | none => []

/-- Python truthiness of `root_artifact`: `None` and the empty string are
falsy. -/
def rootFalsy : Option Artifact → Bool
  | none => true
  | some r => r.isEmpty

/-- `create_dependency_graph`: validation, discovery, per-file extraction and
assembly, optional subgraph scoping.  `files` is the filesystem snapshot
under `sql_dir` in `rglob` order (path, text). -/
def createDependencyGraph (sqlDir : List Char) (files : List (List Char × List Char))
    (relationship : List Char) (rootArtifact : Option Artifact) :
    Except BuildError DependencyGraph :=
  if relationship = ("parent").toList ∨ relationship = ("dependency").toList then
    if relationship = ("parent").toList ∧ rootFalsy rootArtifact = true then
      Except.error BuildError.missingRootArtifact
    else
      match buildPathLookup sqlDir [] (files.map Prod.fst) with
      | Except.error _ => Except.error BuildError.pathResolution
      | Except.ok lkp =>
        let g := lkp.foldl
          (fun acc ap =>
            createDependencyGraphHelper ap.1 (getDependencies (fileText files ap.2))
              acc relationship) []
        if rootFalsy rootArtifact = true then Except.ok g
        else Except.ok (createDependencySubgraph g (rootArtifact.getD []))
  else Except.error BuildError.invalidRelationship

/-- Transitive reachability along the graph's outgoing edges (spec §4.4's
"reachable from the root by following outgoing edges transitively"). -/
inductive Reaches (g : DependencyGraph) (root : Artifact) : Artifact → Prop
  | refl : Reaches g root root
  | step {a : Artifact} {deps : List Artifact} {d : Artifact} :
      Reaches g root a → dictGet g a = some deps → d ∈ deps → Reaches g root d

/-! ## Example filesystem (spec §8 scenario), used by witnesses -/

def exampleFiles : List (List Char × List Char) :=
  [((("sql/master_views/customer.sql").toList),
    (("select * from `master_tables.subscription` join `master_tables.package`").toList)),
   ((("sql/master_tables/package.table.sql").toList), (("select 1").toList))]

def exampleLkp : List (Artifact × List Char) :=
  [((("master_views.customer").toList), (("sql/master_views/customer.sql").toList)),
   ((("master_tables.package").toList), (("sql/master_tables/package.table.sql").toList))]

lemma stripPrefixCI_sound :
    ∀ k l r, stripPrefixCI k l = some r → ∃ m, l = m ++ r ∧ m.map Char.toUpper = k := by
  intro k
  induction k with
  | nil =>
    intro l r h
    simp only [stripPrefixCI, Option.some.injEq] at h
    exact ⟨[], by simp [h]⟩
  | cons a ks ih =>
    intro l r h
    cases l with
    | nil => simp [stripPrefixCI] at h
    | cons c cs =>
      simp only [stripPrefixCI] at h
      split at h
      · rename_i hcond
        obtain ⟨m, hm1, hm2⟩ := ih cs r h
        exact ⟨c :: m, by simp [hm1], by simp [hm2, hcond]⟩
      · exact absurd h (by simp)

lemma stripAnyKeyword_sound :
    ∀ ks l r, stripAnyKeyword ks l = some r →
      ∃ m, l = m ++ r ∧ m.map Char.toUpper ∈ ks := by
  intro ks
  induction ks with
  | nil => intro l r h; simp [stripAnyKeyword] at h
  | cons k ks ih =>
    intro l r h
    simp only [stripAnyKeyword] at h
    split at h
    · obtain ⟨m, hm1, hm2⟩ := stripPrefixCI_sound k l r (by
        simp only [Option.some.injEq] at h
        cases h
        assumption)
      exact ⟨m, hm1, by simp [hm2]⟩
    · obtain ⟨m, hm1, hm2⟩ := ih l r h
      exact ⟨m, hm1, by simp [hm2]⟩

lemma captureTail_sound :
    ∀ l e rest, captureTail l = some (e, rest) →
      ∃ d2, isDelimChar d2 = true ∧ l = e ++ d2 :: rest := by
  intro l
  induction l with
  | nil => intro e rest h; simp [captureTail] at h
  | cons c r ih =>
    intro e rest h
    simp only [captureTail] at h
    split at h
    · simp only [Option.some.injEq, Prod.mk.injEq] at h
      obtain ⟨h1, h2⟩ := h
      exact ⟨c, by assumption, by simp [← h1, ← h2]⟩
    · split at h
      · exact absurd h (by simp)
      · split at h
        · rename_i e0 rest0 heq
          simp only [Option.some.injEq, Prod.mk.injEq] at h
          obtain ⟨h1, h2⟩ := h
          obtain ⟨d2, hd2, hr⟩ := ih e0 rest0 heq
          exact ⟨d2, hd2, by simp [← h1, ← h2, hr]⟩
        · exact absurd h (by simp)

lemma matchAt_sound {l e rest} (h : matchAt l = some (e, rest)) :
    ∃ kw ws d1 d2, l = kw ++ ws ++ d1 :: (e ++ d2 :: rest) ∧
      kw.map Char.toUpper ∈ keywordList ∧
      ws ≠ [] ∧ (∀ c ∈ ws, isSpaceChar c = true) ∧
      isDelimChar d1 = true ∧ isDelimChar d2 = true := by
  unfold matchAt at h
  cases hstrip : stripAnyKeyword keywordList l with
  | none => rw [hstrip] at h; simp at h
  | some l1 =>
    rw [hstrip] at h
    cases l1 with
    | nil => simp at h
    | cons c r =>
      dsimp only at h
      by_cases hc : isSpaceChar c = true
      · rw [if_pos hc] at h
        cases hdrop : r.dropWhile isSpaceChar with
        | nil => rw [hdrop] at h; simp at h
        | cons d r2 =>
          rw [hdrop] at h
          dsimp only at h
          by_cases hd : isDelimChar d = true
          · rw [if_pos hd] at h
            obtain ⟨kw, hkw1, hkw2⟩ := stripAnyKeyword_sound keywordList l _ hstrip
            obtain ⟨d2, hd2, hr2⟩ := captureTail_sound r2 e rest h
            refine ⟨kw, c :: r.takeWhile isSpaceChar, d, d2, ?_, hkw2, by simp, ?_, hd, hd2⟩
            · have hsplit : (c :: r : List Char) =
                  (c :: r.takeWhile isSpaceChar) ++ (d :: r2) := by
                conv_lhs =>
                  rw [← List.takeWhile_append_dropWhile (p := isSpaceChar) (l := r), hdrop]
                simp
              rw [hkw1, hsplit, hr2]
              simp [List.append_assoc]
            · intro x hx
              rcases List.mem_cons.mp hx with hx | hx
              · subst hx; exact hc
              · exact List.mem_takeWhile_imp hx
          · rw [if_neg hd] at h; simp at h
      · rw [if_neg hc] at h; simp at h

lemma isDelim_not_word {d : Char} (h : isDelimChar d = true) : isWordChar d = false := by
  simp only [isDelimChar, Bool.or_eq_true, decide_eq_true_eq] at h
  rcases h with h | h <;> subst h <;> decide

lemma getLast?_cons_append_singleton (a b : Char) (l : List Char) :
    (a :: (l ++ [b])).getLast? = some b := by
  rw [show a :: (l ++ [b]) = (a :: l) ++ [b] by simp]
  exact List.getLast?_concat _

lemma scanAux_sound :
    ∀ f b l pre,
      (b = false → pre = [] ∨ ∃ c, pre.getLast? = some c ∧ isWordChar c = false) →
      ∀ e, e ∈ scanAux f b l → specPreceded false (pre ++ l) e := by
  intro f
  induction f with
  | zero => intro b l pre _ e he; simp [scanAux] at he
  | succ f ih =>
    intro b l pre hpre e he
    cases l with
    | nil => simp [scanAux] at he
    | cons c r =>
      simp only [scanAux] at he
      split at he
      · rename_i hb
        have := ih (isWordChar c) r (pre ++ [c])
          (fun h => Or.inr ⟨c, by simp, h⟩) e he
        simpa [List.append_assoc] using this
      · rename_i hb
        split at he
        · rename_i e0 rest hmatch
          obtain ⟨kw, ws, d1, d2, hdec, hkw, hws, hwsall, hd1, hd2⟩ :=
            matchAt_sound hmatch
          rcases List.mem_cons.mp he with he | he
          · subst he
            refine ⟨pre, kw, ws, d1, d2, rest, ?_, hpre (by simpa using hb), hkw,
              hws, hwsall, hd1, hd2, by simp⟩
            rw [hdec]
            simp [List.append_assoc]
          · have := ih false rest (pre ++ kw ++ ws ++ d1 :: (e0 ++ [d2]))
              (fun _ => Or.inr ⟨d2, by
                simp [getLast?_cons_append_singleton], isDelim_not_word hd2⟩) e he
            have harr : pre ++ kw ++ ws ++ d1 :: (e0 ++ [d2]) ++ rest =
                pre ++ (c :: r) := by
              rw [hdec]
              simp [List.append_assoc]
            rwa [harr] at this
        · have := ih (isWordChar c) r (pre ++ [c])
            (fun h => Or.inr ⟨c, by simp, h⟩) e he
          simpa [List.append_assoc] using this

lemma isPrefixOf_iff (p : List Char) : ∀ l, p.isPrefixOf l = true ↔ ∃ t, l = p ++ t := by
  induction p with
  | nil =>
    intro l
    constructor
    · intro _; exact ⟨l, rfl⟩
    · intro _; cases l <;> rfl
  | cons c p ih =>
    intro l
    cases l with
    | nil =>
      constructor
      · intro h; simp [List.isPrefixOf] at h
      · rintro ⟨t, ht⟩; simp at ht
    | cons d l =>
      simp only [List.isPrefixOf, Bool.and_eq_true, beq_iff_eq, ih]
      constructor
      · rintro ⟨rfl, t, rfl⟩; exact ⟨t, rfl⟩
      · rintro ⟨t, ht⟩
        injection ht with h1 h2
        exact ⟨h1.symm, t, h2⟩

lemma take_append_le : ∀ (n : Nat) (x y : List Char), n ≤ x.length → (x ++ y).take n = x.take n := by
  intro n
  induction n with
  | zero => intro x y _; simp
  | succ n ih =>
    intro x y h
    cases x with
    | nil => simp at h
    | cons c x =>
      simp only [List.cons_append, List.take_succ_cons]
      rw [ih x y (by simpa using h)]

lemma drop_append_le : ∀ (n : Nat) (x y : List Char), n ≤ x.length → (x ++ y).drop n = x.drop n ++ y := by
  intro n
  induction n with
  | zero => intro x y _; simp
  | succ n ih =>
    intro x y h
    cases x with
    | nil => simp at h
    | cons c x =>
      simp only [List.cons_append, List.drop_succ_cons]
      exact ih x y (by simpa using h)

lemma prefix_append_cases (pat x ext : List Char) (hx : x ≠ [])
    (hp : pat.isPrefixOf (x ++ ext) = true) :
    pat.isPrefixOf x = true ∨
      (1 ≤ x.length ∧ x.length < pat.length ∧ (pat.drop x.length).isPrefixOf ext = true) := by
  obtain ⟨t, ht⟩ := (isPrefixOf_iff pat (x ++ ext)).mp hp
  by_cases hle : pat.length ≤ x.length
  · left
    have h1 : (x ++ ext).take pat.length = x.take pat.length := take_append_le _ _ _ hle
    rw [ht, List.take_left] at h1
    apply (isPrefixOf_iff pat x).mpr
    refine ⟨x.drop pat.length, ?_⟩
    conv_lhs => rw [← List.take_append_drop pat.length x]
    rw [← h1]
  · right
    push_neg at hle
    refine ⟨?_, hle, ?_⟩
    · cases x with
      | nil => exact absurd rfl hx
      | cons c r => simp
    · have h1 : (x ++ ext).drop x.length = ext := List.drop_left _ _
      have h2 : (pat ++ t).drop x.length = pat.drop x.length ++ t :=
        drop_append_le _ _ _ (le_of_lt hle)
      rw [ht, h2] at h1
      exact (isPrefixOf_iff _ _).mpr ⟨t, h1.symm⟩

lemma containsSub_append_false (pat ext : List Char)
    (h2 : containsSub pat ext = false)
    (h3 : ∀ n, n < pat.length → 1 ≤ n → (pat.drop n).isPrefixOf ext = false) :
    ∀ a, containsSub pat a = false → containsSub pat (a ++ ext) = false := by
  intro a
  induction a with
  | nil => intro _; simpa using h2
  | cons c r ih =>
    intro h1
    simp only [containsSub, Bool.or_eq_false_iff] at h1
    have hrec : containsSub pat (r ++ ext) = false := ih h1.2
    have hpre : pat.isPrefixOf ((c :: r) ++ ext) = false := by
      by_contra hcon
      have hcon2 : pat.isPrefixOf ((c :: r) ++ ext) = true := by
        revert hcon
        cases pat.isPrefixOf ((c :: r) ++ ext) <;> simp
      rcases prefix_append_cases pat (c :: r) ext (by simp) hcon2 with hl | ⟨_, hlt, hdr⟩
      · rw [h1.1] at hl; exact absurd hl (by simp)
      · rw [h3 _ hlt (by simp)] at hdr; exact absurd hdr (by simp)
    show containsSub pat (c :: (r ++ ext)) = false
    simp only [containsSub, Bool.or_eq_false_iff]
    exact ⟨hpre, hrec⟩

lemma removeAllAux_no_occurrence (p : Char) (ps : List Char) :
    ∀ f l, containsSub (p :: ps) l = false → removeAllAux p ps f l = l := by
  intro f
  induction f with
  | zero => intro l _; rfl
  | succ f ih =>
    intro l h
    cases l with
    | nil => rfl
    | cons c r =>
      simp only [containsSub, Bool.or_eq_false_iff] at h
      simp only [removeAllAux, h.1, Bool.false_eq_true, if_false]
      rw [ih r h.2]

lemma removeAllAux_mem (p : Char) (ps : List Char) :
    ∀ f l x, x ∈ removeAllAux p ps f l → x ∈ l := by
  intro f
  induction f with
  | zero => intro l x h; exact h
  | succ f ih =>
    intro l x h
    cases l with
    | nil => simp [removeAllAux] at h
    | cons c r =>
      simp only [removeAllAux] at h
      split at h
      · exact List.mem_cons_of_mem c (List.drop_subset _ _ (ih _ x h))
      · rcases List.mem_cons.mp h with h | h
        · exact h ▸ List.mem_cons_self ..
        · exact List.mem_cons_of_mem c (ih _ x h)

lemma removeAll_no_occurrence (p : Char) (ps l : List Char)
    (h : containsSub (p :: ps) l = false) : removeAll p ps l = l :=
  removeAllAux_no_occurrence p ps _ l h

lemma charReplace_mem (a b : Char) (l : List Char) (x : Char)
    (h : x ∈ charReplace a b l) : x = b ∨ x ∈ l := by
  simp only [charReplace, List.mem_map] at h
  obtain ⟨y, hy, hxy⟩ := h
  by_cases hya : y = a
  · rw [if_pos hya] at hxy; left; exact hxy.symm
  · rw [if_neg hya] at hxy; right; rw [← hxy]; exact hy

lemma charReplace_slash_free (l : List Char) : ∀ x ∈ charReplace '/' '.' l, x ≠ '/' := by
  intro x hx
  simp only [charReplace, List.mem_map] at hx
  obtain ⟨y, _, hxy⟩ := hx
  by_cases hy : y = '/'
  · rw [if_pos hy] at hxy; rw [← hxy]; decide
  · rw [if_neg hy] at hxy; rw [← hxy]; exact hy

lemma charReplace_append (a b : Char) (l1 l2 : List Char) :
    charReplace a b (l1 ++ l2) = charReplace a b l1 ++ charReplace a b l2 :=
  List.map_append _ _ _

lemma charReplace_roundtrip (a : List Char) (h : ∀ c ∈ a, c ≠ '/') :
    charReplace '/' '.' (charReplace '.' '/' a) = a := by
  induction a with
  | nil => rfl
  | cons c r ih =>
    show (if (if c = '.' then '/' else c) = '/' then '.' else (if c = '.' then '/' else c)) ::
        charReplace '/' '.' (charReplace '.' '/' r) = c :: r
    rw [ih (fun x hx => h x (List.mem_cons_of_mem c hx))]
    congr 1
    by_cases hcd : c = '.'
    · simp [hcd]
    · simp [hcd, h c (List.mem_cons_self ..)]

lemma takeWhile_ne_nl (l : List Char) (h : ∀ c ∈ l, c ≠ '\n') :
    l.takeWhile (fun ch => ch != '\n') = l := by
  induction l with
  | nil => rfl
  | cons c r ih =>
    have hc : (c != '\n') = true := by
      simp only [bne_iff_ne, ne_eq]
      exact h c (List.mem_cons_self ..)
    simp only [List.takeWhile_cons, hc, if_true]
    rw [ih (fun x hx => h x (List.mem_cons_of_mem c hx))]

lemma reCharMatches_refl (pc : Char) : reCharMatches pc pc = true := by
  unfold reCharMatches
  by_cases hpc : pc = '.'
  · rw [if_pos hpc, hpc]; decide
  · rw [if_neg hpc]; simp

lemma reMatchesAt_refl : ∀ (pat rest : List Char), reMatchesAt pat (pat ++ rest) = some rest := by
  intro pat
  induction pat with
  | nil => intro rest; rfl
  | cons pc ps ih =>
    intro rest
    show (if reCharMatches pc pc = true then reMatchesAt ps (ps ++ rest) else none) = some rest
    rw [reCharMatches_refl, if_pos rfl, ih]

lemma containsMatch_prefix_text (pat t : List Char) (hp : pat ≠ []) :
    containsMatch pat (pat ++ t) = true := by
  cases pat with
  | nil => exact absurd rfl hp
  | cons q qs =>
    show containsMatch (q :: qs) (q :: (qs ++ t)) = true
    simp only [containsMatch]
    have hm : reMatchesAt (q :: qs) (q :: (qs ++ t)) = some t := reMatchesAt_refl (q :: qs) t
    rw [hm]
    rfl

lemma findCapture_prefix (pat rest : List Char) (hp : pat ≠ []) :
    findCapture pat (pat ++ rest) = some (rest.takeWhile (fun ch => ch != '\n')) := by
  cases pat with
  | nil => exact absurd rfl hp
  | cons q qs =>
    have hm : reMatchesAt (q :: qs) (q :: (qs ++ rest)) = some rest :=
      reMatchesAt_refl (q :: qs) rest
    show findCapture (q :: qs) (q :: (qs ++ rest)) = _
    simp only [findCapture, hm]

lemma findCapture_none_iff (pat : List Char) (hp : pat ≠ []) :
    ∀ s, findCapture pat s = none ↔ containsMatch pat s = false := by
  intro s
  induction s with
  | nil =>
    constructor
    · intro _
      cases pat with
      | nil => exact absurd rfl hp
      | cons a b => rfl
    · intro _; rfl
  | cons c r ih =>
    simp only [findCapture, containsMatch]
    cases hm : reMatchesAt pat (c :: r) with
    | some rest => simp [hm]
    | none => simp [hm, ih]

lemma removeAllAux_strip_end (p : Char) (ps : List Char)
    (hself : ∀ n, n < (p :: ps).length → 1 ≤ n → ((p :: ps).drop n).isPrefixOf (p :: ps) = false) :
    ∀ f a, (a ++ p :: ps).length ≤ f → containsSub (p :: ps) a = false →
      removeAllAux p ps f (a ++ p :: ps) = a := by
  intro f
  induction f with
  | zero =>
    intro a h _
    simp only [List.length_append, List.length_cons] at h
    omega
  | succ f ih =>
    intro a hlen hocc
    cases a with
    | nil =>
      show removeAllAux p ps (f + 1) ([] ++ p :: ps) = []
      simp only [List.nil_append]
      have hpre : (p :: ps).isPrefixOf (p :: ps) = true :=
        (isPrefixOf_iff _ _).mpr ⟨[], by simp⟩
      simp only [removeAllAux, hpre, if_true]
      rw [List.drop_length]
      cases f <;> rfl
    | cons c r =>
      have hocc2 : (p :: ps).isPrefixOf (c :: r) = false ∧ containsSub (p :: ps) r = false := by
        simpa [containsSub, Bool.or_eq_false_iff] using hocc
      have hpre : (p :: ps).isPrefixOf (c :: (r ++ p :: ps)) = false := by
        by_contra hcon
        have hcon2 : (p :: ps).isPrefixOf (c :: (r ++ p :: ps)) = true := by
          revert hcon; cases ((p :: ps).isPrefixOf (c :: (r ++ p :: ps))) <;> simp
        rcases prefix_append_cases (p :: ps) (c :: r) (p :: ps) (by simp) hcon2 with
          hl | ⟨h1, hlt, hdr⟩
        · rw [hocc2.1] at hl; exact absurd hl (by simp)
        · rw [hself _ hlt h1] at hdr; exact absurd hdr (by simp)
      show removeAllAux p ps (f + 1) (c :: (r ++ p :: ps)) = c :: r
      simp only [removeAllAux, hpre, Bool.false_eq_true, if_false]
      congr 1
      refine ih r ?_ hocc2.2
      simp only [List.length_append, List.length_cons] at hlen ⊢
      omega

lemma removeAll_strip_end (p : Char) (ps a : List Char)
    (hself : ∀ n, n < (p :: ps).length → 1 ≤ n → ((p :: ps).drop n).isPrefixOf (p :: ps) = false)
    (hocc : containsSub (p :: ps) a = false) :
    removeAll p ps (a ++ p :: ps) = a :=
  removeAllAux_strip_end p ps hself _ a (le_refl _) hocc

lemma convert_prefix_eq (D rel : List Char) (hnl : ∀ c ∈ rel, c ≠ '\n')
    (hnorm : normPath (D ++ '/' :: rel) = normPath D ++ '/' :: rel) :
    convertPathToArtifact D (D ++ '/' :: rel) = Except.ok (resolveRel rel) := by
  unfold convertPathToArtifact
  rw [hnorm,
    show (normPath D ++ '/' :: rel : List Char) = (normPath D ++ ['/']) ++ rel from by simp,
    findCapture_prefix _ _ (by simp), takeWhile_ne_nl rel hnl]
  rfl

lemma convert_reconstruct_eq (D a : List Char)
    (hslash : ∀ c ∈ a, c ≠ '/') (hnl : ∀ c ∈ a, c ≠ '\n')
    (htable : containsSub ('.' :: tableTail) a = false)
    (hsql : containsSub ('.' :: sqlTail) a = false)
    (hnorm : normPath (reconstructPath D a) =
      normPath D ++ '/' :: (charReplace '.' '/' a ++ (".sql").toList)) :
    convertPathToArtifact D (reconstructPath D a) = Except.ok a := by
  have hrel : ∀ c ∈ charReplace '.' '/' a ++ (".sql").toList, c ≠ '\n' := by
    intro c hc
    rcases List.mem_append.mp hc with hc | hc
    · rcases charReplace_mem '.' '/' a c hc with hc | hc
      · rw [hc]; decide
      · exact hnl c hc
    · have hc2 : c ∈ ['.', 's', 'q', 'l'] := hc
      simp only [List.mem_cons, List.not_mem_nil, or_false] at hc2
      rcases hc2 with rfl | rfl | rfl | rfl <;> decide
  unfold convertPathToArtifact
  rw [hnorm,
    show (normPath D ++ '/' :: (charReplace '.' '/' a ++ (".sql").toList) : List Char) =
      (normPath D ++ ['/']) ++ (charReplace '.' '/' a ++ (".sql").toList) from by simp,
    findCapture_prefix _ _ (by simp), takeWhile_ne_nl _ hrel]
  show Except.ok (removeAll '.' sqlTail (removeAll '.' tableTail
      (charReplace '/' '.' (charReplace '.' '/' a ++ (".sql").toList)))) = Except.ok a
  have hcr : charReplace '/' '.' (charReplace '.' '/' a ++ (".sql").toList) =
      a ++ '.' :: sqlTail := by
    rw [charReplace_append, charReplace_roundtrip a hslash]
    rfl
  rw [hcr]
  have ht2 : containsSub ('.' :: tableTail) (a ++ '.' :: sqlTail) = false :=
    containsSub_append_false _ _ (by decide) (by decide) a htable
  rw [removeAll_no_occurrence _ _ _ ht2, removeAll_strip_end _ _ _ (by decide) hsql]

lemma resolveRel_slash_free (rel : List Char) : ∀ c ∈ resolveRel rel, c ≠ '/' := by
  intro c hc
  exact charReplace_slash_free rel c
    (removeAllAux_mem _ _ _ _ c (removeAllAux_mem _ _ _ _ c hc))

lemma resolveRel_nl_free (rel : List Char) (hnl : ∀ c ∈ rel, c ≠ '\n') :
    ∀ c ∈ resolveRel rel, c ≠ '\n' := by
  intro c hc
  have hc2 : c ∈ charReplace '/' '.' rel :=
    removeAllAux_mem _ _ _ _ c (removeAllAux_mem _ _ _ _ c hc)
  rcases charReplace_mem '/' '.' rel c hc2 with hc3 | hc3
  · rw [hc3]; decide
  · exact hnl c hc3

/-! ## Dictionary lemmas -/

lemma dictGet_dictInsert {β : Type} (k : Artifact) (v : β) :
    ∀ d a, dictGet (dictInsert k v d) a = if k = a then some v else dictGet d a := by
  intro d
  induction d with
  | nil =>
    intro a
    simp [dictInsert, dictGet]
  | cons p r ih =>
    intro a
    obtain ⟨k2, v2⟩ := p
    by_cases hk : k2 = k
    · subst hk
      simp only [dictInsert, if_pos rfl, dictGet]
      by_cases ha : k2 = a
      · subst ha; simp
      · simp [dictGet, ha]
    · simp only [dictInsert, if_neg hk, dictGet, ih]
      by_cases ha : k2 = a
      · subst ha
        have hk2 : k ≠ k2 := fun h => hk h.symm
        simp [hk2]
      · simp [ha]

lemma dictInsert_keys {β : Type} (k : Artifact) (v : β) :
    ∀ d : List (Artifact × β), (dictInsert k v d).map Prod.fst =
      if k ∈ d.map Prod.fst then d.map Prod.fst else d.map Prod.fst ++ [k] := by
  intro d
  induction d with
  | nil =>
    rw [if_neg (by simp)]
    rfl
  | cons p r ih =>
    obtain ⟨k2, v2⟩ := p
    by_cases hk : k2 = k
    · subst hk
      simp only [dictInsert]
      rw [if_pos trivial, if_pos (by rw [List.map_cons]; exact List.mem_cons_self _ _)]
      rfl
    · simp only [dictInsert, if_neg hk, List.map_cons, ih]
      by_cases hm : k ∈ r.map Prod.fst
      · rw [if_pos hm, if_pos (by simp [hm])]
      · rw [if_neg hm, if_neg (by
          simp only [List.mem_cons]
          rintro (h | h)
          · exact hk h.symm
          · exact hm h)]
        simp

lemma dictInsert_keys_nodup {β : Type} (k : Artifact) (v : β)
    (d : List (Artifact × β)) (h : (d.map Prod.fst).Nodup) :
    ((dictInsert k v d).map Prod.fst).Nodup := by
  rw [dictInsert_keys]
  by_cases hm : k ∈ d.map Prod.fst
  · simpa [hm] using h
  · rw [if_neg hm]
    refine List.Nodup.append h (List.nodup_singleton _) ?_
    intro x hx hx2
    simp only [List.mem_singleton] at hx2
    subst hx2
    exact hm hx

lemma dictGet_isSome_iff {β : Type} :
    ∀ (d : List (Artifact × β)) a, (dictGet d a).isSome = true ↔ a ∈ d.map Prod.fst := by
  intro d
  induction d with
  | nil =>
    intro a
    show (none : Option β).isSome = true ↔ a ∈ ([] : List Artifact)
    simp
  | cons p r ih =>
    intro a
    obtain ⟨k, v⟩ := p
    simp only [dictGet, List.map_cons, List.mem_cons]
    by_cases hk : k = a
    · subst hk
      rw [if_pos rfl]
      exact ⟨fun _ => Or.inl rfl, fun _ => rfl⟩
    · simp only [if_neg hk, ih]
      constructor
      · intro h; exact Or.inr h
      · rintro (h | h)
        · exact absurd h.symm hk
        · exact h

lemma buildPathLookup_keys_nodup (sqlDir : List Char) :
    ∀ paths acc lkp, ((acc.map Prod.fst).Nodup) →
      buildPathLookup sqlDir acc paths = Except.ok lkp → ((lkp.map Prod.fst).Nodup) := by
  intro paths
  induction paths with
  | nil =>
    intro acc lkp h hb
    simp only [buildPathLookup, Except.ok.injEq] at hb
    exact hb ▸ h
  | cons p rest ih =>
    intro acc lkp h hb
    simp only [buildPathLookup] at hb
    split at hb
    · exact absurd hb (by simp)
    · exact ih _ _ (dictInsert_keys_nodup _ _ _ h) hb

/-! ## Builder fold lemmas -/

lemma helper_dependency (a : Artifact) (deps : List Artifact) (g : DependencyGraph) :
    createDependencyGraphHelper a deps g (("dependency").toList) = dictInsert a deps g := by
  unfold createDependencyGraphHelper
  rw [if_neg (by decide), if_pos rfl]

lemma dictGet_foldl_not_mem (val : Artifact × List Char → List Artifact) :
    ∀ (l : List (Artifact × List Char)) (g0 : DependencyGraph) (a : Artifact),
      a ∉ l.map Prod.fst →
      dictGet (l.foldl (fun acc ap => dictInsert ap.1 (val ap) acc) g0) a = dictGet g0 a := by
  intro l
  induction l with
  | nil => intro g0 a _; rfl
  | cons p r ih =>
    intro g0 a ha
    simp only [List.map_cons, List.mem_cons] at ha
    push_neg at ha
    simp only [List.foldl_cons]
    rw [ih _ _ ha.2, dictGet_dictInsert, if_neg (fun h => ha.1 h.symm)]

lemma dictGet_foldl_mem (val : Artifact × List Char → List Artifact) :
    ∀ (l : List (Artifact × List Char)) (g0 : DependencyGraph),
      ((l.map Prod.fst).Nodup) → ∀ a p, (a, p) ∈ l →
      dictGet (l.foldl (fun acc ap => dictInsert ap.1 (val ap) acc) g0) a =
        some (val (a, p)) := by
  intro l
  induction l with
  | nil => intro g0 _ a p h; simp at h
  | cons q r ih =>
    intro g0 hnd a p hmem
    simp only [List.map_cons, List.nodup_cons] at hnd
    simp only [List.foldl_cons]
    rcases List.mem_cons.mp hmem with heq | hmem2
    · subst heq
      rw [dictGet_foldl_not_mem val r _ a hnd.1, dictGet_dictInsert, if_pos rfl]
    · exact ih _ hnd.2 a p hmem2

/-! ## Subgraph loop lemmas -/

lemma subgraphLoop_mem_final (g : DependencyGraph) :
    ∀ f lkp sub vis s v, subgraphLoop g f lkp sub vis = some (s, v) →
      (∀ x ∈ lkp, x ∈ v) ∧ (∀ x ∈ vis, x ∈ v) := by
  intro f
  induction f with
  | zero =>
    intro lkp sub vis s v h
    cases lkp with
    | nil =>
      simp only [subgraphLoop, Option.some.injEq, Prod.mk.injEq] at h
      exact ⟨by simp, fun x hx => h.2 ▸ hx⟩
    | cons a rest => simp [subgraphLoop] at h
  | succ f ih =>
    intro lkp sub vis s v h
    cases lkp with
    | nil =>
      simp only [subgraphLoop, Option.some.injEq, Prod.mk.injEq] at h
      exact ⟨by simp, fun x hx => h.2 ▸ hx⟩
    | cons a rest =>
      cases hget : dictGet g a with
      | some deps =>
        simp only [subgraphLoop, hget] at h
        obtain ⟨h1, h2⟩ := ih _ _ _ _ _ h
        refine ⟨?_, fun x hx => h2 x (List.mem_cons_of_mem a hx)⟩
        intro x hx
        rcases List.mem_cons.mp hx with rfl | hx
        · exact h2 x (List.mem_cons_self ..)
        · exact h1 x (List.mem_append_left _ hx)
      | none =>
        simp only [subgraphLoop, hget] at h
        obtain ⟨h1, h2⟩ := ih _ _ _ _ _ h
        refine ⟨?_, fun x hx => h2 x (List.mem_cons_of_mem a hx)⟩
        intro x hx
        rcases List.mem_cons.mp hx with rfl | hx
        · exact h2 x (List.mem_cons_self ..)
        · exact h1 x hx

lemma subgraphLoop_deps_closed (g : DependencyGraph) :
    ∀ f lkp sub vis s v, subgraphLoop g f lkp sub vis = some (s, v) →
      ∀ a ∈ v, a ∉ vis → ∀ deps, dictGet g a = some deps → ∀ d ∈ deps, d ∈ v := by
  intro f
  induction f with
  | zero =>
    intro lkp sub vis s v h a hav hanv deps hdeps d hd
    cases lkp with
    | nil =>
      simp only [subgraphLoop, Option.some.injEq, Prod.mk.injEq] at h
      exact absurd (h.2 ▸ hav) hanv
    | cons q rest => simp [subgraphLoop] at h
  | succ f ih =>
    intro lkp sub vis s v h a hav hanv deps hdeps d hd
    cases lkp with
    | nil =>
      simp only [subgraphLoop, Option.some.injEq, Prod.mk.injEq] at h
      exact absurd (h.2 ▸ hav) hanv
    | cons q rest =>
      cases hget : dictGet g q with
      | some deps0 =>
        simp only [subgraphLoop, hget] at h
        by_cases haq : a = q
        · subst haq
          rw [hget] at hdeps
          injection hdeps with hdeps
          subst hdeps
          by_cases hdv : d ∈ vis
          · exact (subgraphLoop_mem_final g _ _ _ _ _ _ h).2 d (List.mem_cons_of_mem _ hdv)
          · by_cases hdr : d ∈ rest
            · exact (subgraphLoop_mem_final g _ _ _ _ _ _ h).1 d (List.mem_append_left _ hdr)
            · refine (subgraphLoop_mem_final g _ _ _ _ _ _ h).1 d (List.mem_append_right _ ?_)
              simp only [List.mem_filter, List.mem_dedup]
              refine ⟨hd, ?_⟩
              simp [hdv, hdr]
        · exact ih _ _ _ _ _ h a hav
            (fun hmem => (List.mem_cons.mp hmem).elim haq hanv) deps hdeps d hd
      | none =>
        simp only [subgraphLoop, hget] at h
        by_cases haq : a = q
        · subst haq
          rw [hget] at hdeps
          exact absurd hdeps (by simp)
        · exact ih _ _ _ _ _ h a hav
            (fun hmem => (List.mem_cons.mp hmem).elim haq hanv) deps hdeps d hd

lemma subgraphLoop_subArts (g : DependencyGraph) :
    ∀ f lkp sub vis s v, subgraphLoop g f lkp sub vis = some (s, v) →
      (∀ x, x ∈ sub ↔ (x ∈ vis ∨ x ∈ lkp)) → ∀ x, x ∈ s ↔ x ∈ v := by
  intro f
  induction f with
  | zero =>
    intro lkp sub vis s v h hpre x
    cases lkp with
    | nil =>
      simp only [subgraphLoop, Option.some.injEq, Prod.mk.injEq] at h
      rw [← h.1, ← h.2]
      simpa using hpre x
    | cons a rest => simp [subgraphLoop] at h
  | succ f ih =>
    intro lkp sub vis s v h hpre x
    cases lkp with
    | nil =>
      simp only [subgraphLoop, Option.some.injEq, Prod.mk.injEq] at h
      rw [← h.1, ← h.2]
      simpa using hpre x
    | cons a rest =>
      cases hget : dictGet g a with
      | some deps =>
        simp only [subgraphLoop, hget] at h
        refine ih _ _ _ _ _ h ?_ x
        intro y
        have hy := hpre y
        simp only [List.mem_append, List.mem_cons, List.mem_filter, List.mem_dedup,
          Bool.and_eq_true, Bool.not_eq_true', decide_eq_false_iff_not] at hy ⊢
        constructor
        · rintro (hs | hd)
          · rcases hy.mp hs with hv | hq | hr
            · exact Or.inl (Or.inr hv)
            · exact Or.inl (Or.inl hq)
            · exact Or.inr (Or.inl hr)
          · by_cases hv : y ∈ vis
            · exact Or.inl (Or.inr hv)
            · by_cases hr : y ∈ rest
              · exact Or.inr (Or.inl hr)
              · exact Or.inr (Or.inr ⟨hd, hv, hr⟩)
        · rintro ((hq | hv) | hr | hnew)
          · exact Or.inl (hy.mpr (Or.inr (Or.inl hq)))
          · exact Or.inl (hy.mpr (Or.inl hv))
          · exact Or.inl (hy.mpr (Or.inr (Or.inr hr)))
          · exact Or.inr hnew.1
      | none =>
        simp only [subgraphLoop, hget] at h
        refine ih _ _ _ _ _ h ?_ x
        intro y
        have hy := hpre y
        simp only [List.mem_append, List.mem_cons, List.mem_singleton] at hy ⊢
        constructor
        · rintro (hs | hq)
          · rcases hy.mp hs with hv | hq | hr
            · exact Or.inl (Or.inr hv)
            · exact Or.inl (Or.inl hq)
            · exact Or.inr hr
          · rcases hq with hq | hq
            · exact Or.inl (Or.inl hq)
            · simp at hq
        · rintro ((hq | hv) | hr)
          · exact Or.inr (Or.inl hq)
          · exact Or.inl (hy.mpr (Or.inl hv))
          · exact Or.inl (hy.mpr (Or.inr (Or.inr hr)))

lemma subgraphLoop_reaches (g : DependencyGraph) (root : Artifact) :
    ∀ f lkp sub vis s v, subgraphLoop g f lkp sub vis = some (s, v) →
      (∀ x ∈ lkp, Reaches g root x) → (∀ x ∈ vis, Reaches g root x) →
      ∀ x ∈ v, Reaches g root x := by
  intro f
  induction f with
  | zero =>
    intro lkp sub vis s v h hl hv x hx
    cases lkp with
    | nil =>
      simp only [subgraphLoop, Option.some.injEq, Prod.mk.injEq] at h
      exact hv x (h.2 ▸ hx)
    | cons a rest => simp [subgraphLoop] at h
  | succ f ih =>
    intro lkp sub vis s v h hl hv x hx
    cases lkp with
    | nil =>
      simp only [subgraphLoop, Option.some.injEq, Prod.mk.injEq] at h
      exact hv x (h.2 ▸ hx)
    | cons a rest =>
      cases hget : dictGet g a with
      | some deps =>
        simp only [subgraphLoop, hget] at h
        refine ih _ _ _ _ _ h ?_ ?_ x hx
        · intro y hy
          rcases List.mem_append.mp hy with hy | hy
          · exact hl y (List.mem_cons_of_mem a hy)
          · have hyd : y ∈ deps := List.mem_dedup.mp (List.mem_filter.mp hy).1
            exact Reaches.step (hl a (List.mem_cons_self ..)) hget hyd
        · intro y hy
          rcases List.mem_cons.mp hy with rfl | hy
          · exact hl y (List.mem_cons_self ..)
          · exact hv y hy
      | none =>
        simp only [subgraphLoop, hget] at h
        refine ih _ _ _ _ _ h ?_ ?_ x hx
        · intro y hy
          exact hl y (List.mem_cons_of_mem a hy)
        · intro y hy
          rcases List.mem_cons.mp hy with rfl | hy
          · exact hl y (List.mem_cons_self ..)
          · exact hv y hy

lemma dictGet_mem {β : Type} :
    ∀ (d : List (Artifact × β)) a v, dictGet d a = some v → (a, v) ∈ d := by
  intro d
  induction d with
  | nil => intro a v h; simp [dictGet] at h
  | cons p r ih =>
    intro a v h
    obtain ⟨k, v2⟩ := p
    simp only [dictGet] at h
    split at h
    · rename_i hk
      injection h with h
      subst hk
      subst h
      exact List.mem_cons_self ..
    · exact List.mem_cons_of_mem _ (ih a v h)

lemma mem_mentioned_root (g : DependencyGraph) (root : Artifact) :
    root ∈ mentionedArtifacts g root :=
  List.mem_cons_self ..

lemma mem_mentioned_of_entry (g : DependencyGraph) (root : Artifact) :
    ∀ a deps, (a, deps) ∈ g →
      a ∈ mentionedArtifacts g root ∧ ∀ d ∈ deps, d ∈ mentionedArtifacts g root := by
  have key : ∀ (l : DependencyGraph) a deps, (a, deps) ∈ l →
      a ∈ l.foldr (fun p acc => p.1 :: (p.2 ++ acc)) [] ∧
      ∀ d ∈ deps, d ∈ l.foldr (fun p acc => p.1 :: (p.2 ++ acc)) [] := by
    intro l
    induction l with
    | nil => intro a deps h; simp at h
    | cons p r ih =>
      intro a deps h
      simp only [List.foldr_cons]
      rcases List.mem_cons.mp h with rfl | h
      · exact ⟨List.mem_cons_self .., fun d hd =>
          List.mem_cons_of_mem _ (List.mem_append_left _ hd)⟩
      · obtain ⟨h1, h2⟩ := ih a deps h
        exact ⟨List.mem_cons_of_mem _ (List.mem_append_right _ h1),
          fun d hd => List.mem_cons_of_mem _ (List.mem_append_right _ (h2 d hd))⟩
  intro a deps h
  obtain ⟨h1, h2⟩ := key g a deps h
  exact ⟨List.mem_cons_of_mem _ h1, fun d hd => List.mem_cons_of_mem _ (h2 d hd)⟩

lemma subgraphLoop_terminates (g : DependencyGraph) (root : Artifact) :
    ∀ f lkp sub vis,
      lkp.Nodup →
      (∀ x ∈ lkp, x ∈ mentionedArtifacts g root) →
      2 * ((mentionedArtifacts g root).toFinset \ vis.toFinset).card +
        (lkp.toFinset ∩ vis.toFinset).card ≤ f →
      (subgraphLoop g f lkp sub vis).isSome = true := by
  intro f
  induction f with
  | zero =>
    intro lkp sub vis hnd hsub hM
    cases lkp with
    | nil => rfl
    | cons a rest =>
      exfalso
      have h3 : (mentionedArtifacts g root).toFinset \ vis.toFinset = ∅ :=
        Finset.card_eq_zero.mp (by omega)
      have ha : a ∈ vis.toFinset := by
        have haU : a ∈ (mentionedArtifacts g root).toFinset := by
          rw [List.mem_toFinset]; exact hsub a (List.mem_cons_self ..)
        by_contra hav
        have hmem : a ∈ (mentionedArtifacts g root).toFinset \ vis.toFinset :=
          Finset.mem_sdiff.mpr ⟨haU, hav⟩
        rw [h3] at hmem
        exact absurd hmem (Finset.not_mem_empty a)
      have hmem2 : a ∈ (a :: rest).toFinset ∩ vis.toFinset :=
        Finset.mem_inter.mpr ⟨by simp, ha⟩
      have := Finset.card_pos.mpr ⟨a, hmem2⟩
      omega
  | succ f ih =>
    intro lkp sub vis hnd hsub hM
    cases lkp with
    | nil => rfl
    | cons a rest =>
      have hna : a ∉ rest := (List.nodup_cons.mp hnd).1
      have hndr : rest.Nodup := (List.nodup_cons.mp hnd).2
      have haU : a ∈ (mentionedArtifacts g root).toFinset := by
        rw [List.mem_toFinset]; exact hsub a (List.mem_cons_self ..)
      -- abbreviations used in the arithmetic
      have hlkpF : (a :: rest).toFinset = insert a rest.toFinset := List.toFinset_cons
      have hinter_pop : ∀ hav : a ∈ vis.toFinset,
          ((a :: rest).toFinset ∩ vis.toFinset).card = (rest.toFinset ∩ vis.toFinset).card + 1 := by
        intro hav
        rw [hlkpF, Finset.insert_inter_of_mem hav, Finset.card_insert_of_not_mem]
        intro hmem
        exact hna (List.mem_toFinset.mp (Finset.mem_inter.mp hmem).1)
      have hinter_pop2 : ∀ _ : a ∉ vis.toFinset,
          ((a :: rest).toFinset ∩ vis.toFinset).card = (rest.toFinset ∩ vis.toFinset).card := by
        intro hav
        rw [hlkpF, Finset.insert_inter_of_not_mem hav]
      have hsdiff_pop : ∀ _ : a ∉ vis.toFinset,
          ((mentionedArtifacts g root).toFinset \ (a :: vis).toFinset).card + 1 =
            ((mentionedArtifacts g root).toFinset \ vis.toFinset).card := by
        intro hav
        rw [List.toFinset_cons, Finset.sdiff_insert, Finset.card_erase_of_mem
          (Finset.mem_sdiff.mpr ⟨haU, hav⟩)]
        have : 0 < ((mentionedArtifacts g root).toFinset \ vis.toFinset).card :=
          Finset.card_pos.mpr ⟨a, Finset.mem_sdiff.mpr ⟨haU, hav⟩⟩
        omega
      have hsdiff_same : ∀ _ : a ∈ vis.toFinset,
          (mentionedArtifacts g root).toFinset \ (a :: vis).toFinset =
            (mentionedArtifacts g root).toFinset \ vis.toFinset := by
        intro hav
        rw [List.toFinset_cons, Finset.insert_eq_self.mpr hav]
      cases hget : dictGet g a with
      | some deps =>
        simp only [subgraphLoop, hget]
        have hdepsU : ∀ d ∈ deps, d ∈ mentionedArtifacts g root :=
          (mem_mentioned_of_entry g root a deps (dictGet_mem g a deps hget)).2
        refine ih _ _ _ ?_ ?_ ?_
        · refine List.Nodup.append hndr (List.Nodup.filter _ (List.nodup_dedup deps)) ?_
          intro x hx hx2
          simp only [List.mem_filter, Bool.and_eq_true, Bool.not_eq_true',
            decide_eq_false_iff_not] at hx2
          exact hx2.2.2 hx
        · intro x hx
          rcases List.mem_append.mp hx with hx | hx
          · exact hsub x (List.mem_cons_of_mem a hx)
          · exact hdepsU x (List.mem_dedup.mp (List.mem_filter.mp hx).1)
        · -- measure strictly decreases
          have hnew_vis : ∀ x ∈ (deps.dedup.filter
              (fun d => !(decide (d ∈ vis)) && !(decide (d ∈ rest)))).toFinset,
              x ∉ vis.toFinset := by
            intro x hx hx2
            rw [List.mem_toFinset, List.mem_filter] at hx
            have := hx.2
            simp only [Bool.and_eq_true, Bool.not_eq_true', decide_eq_false_iff_not] at this
            exact this.1 (List.mem_toFinset.mp hx2)
          have hunion : (rest ++ deps.dedup.filter
              (fun d => !(decide (d ∈ vis)) && !(decide (d ∈ rest)))).toFinset =
              rest.toFinset ∪ (deps.dedup.filter
                (fun d => !(decide (d ∈ vis)) && !(decide (d ∈ rest)))).toFinset :=
            List.toFinset_append
          by_cases hav : a ∈ vis.toFinset
          · -- a already visited: the sdiff term is unchanged, the inter term drops by one
            have h1 := congrArg Finset.card (hsdiff_same hav)
            have h2 := hinter_pop hav
            have h3 : ((rest ++ deps.dedup.filter
                (fun d => !(decide (d ∈ vis)) && !(decide (d ∈ rest)))).toFinset ∩
                (a :: vis).toFinset).card ≤ (rest.toFinset ∩ vis.toFinset).card := by
              apply Finset.card_le_card
              intro x hx
              rw [List.toFinset_cons] at hx
              obtain ⟨hx1, hx2⟩ := Finset.mem_inter.mp hx
              rw [hunion] at hx1
              have hx2v : x ∈ vis.toFinset := by
                rcases Finset.mem_insert.mp hx2 with rfl | hx2
                · exact hav
                · exact hx2
              rcases Finset.mem_union.mp hx1 with hx1 | hx1
              · exact Finset.mem_inter.mpr ⟨hx1, hx2v⟩
              · exact absurd hx2v (hnew_vis x hx1)
            omega
          · -- a freshly visited: the sdiff term drops by one
            have h1 := hsdiff_pop hav
            have h2 := hinter_pop2 hav
            have h3 : ((rest ++ deps.dedup.filter
                (fun d => !(decide (d ∈ vis)) && !(decide (d ∈ rest)))).toFinset ∩
                (a :: vis).toFinset).card ≤ (rest.toFinset ∩ vis.toFinset).card + 1 := by
              calc ((rest ++ deps.dedup.filter
                  (fun d => !(decide (d ∈ vis)) && !(decide (d ∈ rest)))).toFinset ∩
                  (a :: vis).toFinset).card
                  ≤ (insert a (rest.toFinset ∩ vis.toFinset)).card := by
                    apply Finset.card_le_card
                    intro x hx
                    rw [List.toFinset_cons] at hx
                    obtain ⟨hx1, hx2⟩ := Finset.mem_inter.mp hx
                    rw [hunion] at hx1
                    rcases Finset.mem_insert.mp hx2 with rfl | hx2
                    · exact Finset.mem_insert_self ..
                    · rcases Finset.mem_union.mp hx1 with hx1 | hx1
                      · exact Finset.mem_insert_of_mem (Finset.mem_inter.mpr ⟨hx1, hx2⟩)
                      · exact absurd hx2 (hnew_vis x hx1)
                _ ≤ (rest.toFinset ∩ vis.toFinset).card + 1 := Finset.card_insert_le ..
            omega
      | none =>
        simp only [subgraphLoop, hget]
        refine ih _ _ _ hndr (fun x hx => hsub x (List.mem_cons_of_mem a hx)) ?_
        by_cases hav : a ∈ vis.toFinset
        · have h1 := congrArg Finset.card (hsdiff_same hav)
          have h2 := hinter_pop hav
          have h3 : (rest.toFinset ∩ (a :: vis).toFinset).card ≤
              (rest.toFinset ∩ vis.toFinset).card := by
            apply Finset.card_le_card
            intro x hx
            rw [List.toFinset_cons] at hx
            obtain ⟨hx1, hx2⟩ := Finset.mem_inter.mp hx
            rcases Finset.mem_insert.mp hx2 with rfl | hx2
            · exact Finset.mem_inter.mpr ⟨hx1, hav⟩
            · exact Finset.mem_inter.mpr ⟨hx1, hx2⟩
          omega
        · have h1 := hsdiff_pop hav
          have h2 := hinter_pop2 hav
          have h3 : (rest.toFinset ∩ (a :: vis).toFinset).card ≤
              (rest.toFinset ∩ vis.toFinset).card + 1 := by
            calc (rest.toFinset ∩ (a :: vis).toFinset).card
                ≤ (insert a (rest.toFinset ∩ vis.toFinset)).card := by
                  apply Finset.card_le_card
                  intro x hx
                  rw [List.toFinset_cons] at hx
                  obtain ⟨hx1, hx2⟩ := Finset.mem_inter.mp hx
                  rcases Finset.mem_insert.mp hx2 with rfl | hx2
                  · exact Finset.mem_insert_self ..
                  · exact Finset.mem_insert_of_mem (Finset.mem_inter.mpr ⟨hx1, hx2⟩)
              _ ≤ (rest.toFinset ∩ vis.toFinset).card + 1 := Finset.card_insert_le ..
          omega

lemma runSubgraphLoop_isSome (g : DependencyGraph) (root : Artifact) :
    (runSubgraphLoop g root).isSome = true := by
  unfold runSubgraphLoop subgraphFuel
  apply subgraphLoop_terminates g root
  · exact List.nodup_singleton root
  · intro x hx
    have hxr : x = root := by simpa using hx
    rw [hxr]
    exact mem_mentioned_root g root
  · have hcard : (mentionedArtifacts g root).toFinset.card =
        (mentionedArtifacts g root).dedup.length := List.card_toFinset _
    have h1 : ([root] : List Artifact).toFinset ∩ ([] : List Artifact).toFinset = ∅ := by
      simp
    have h2 : (mentionedArtifacts g root).toFinset \ ([] : List Artifact).toFinset =
        (mentionedArtifacts g root).toFinset := by
      simp
    rw [h1, h2, hcard]
    simp

/-! ## Subgraph output characterization -/

lemma dictGet_map_self (g : DependencyGraph) :
    ∀ (l : List Artifact) x, dictGet (l.map (fun a => (a, (dictGet g a).getD []))) x =
      if x ∈ l then some ((dictGet g x).getD []) else none := by
  intro l
  induction l with
  | nil => intro x; simp [dictGet]
  | cons a r ih =>
    intro x
    simp only [List.map_cons, dictGet, ih]
    by_cases hax : a = x
    · subst hax; simp
    · rw [if_neg hax]
      by_cases hx : x ∈ r
      · rw [if_pos hx, if_pos (List.mem_cons_of_mem a hx)]
      · rw [if_neg hx,
          if_neg (fun hmem => (List.mem_cons.mp hmem).elim (fun h => hax h.symm) hx)]

lemma dictGet_buildSubgraphDict (g : DependencyGraph) (arts : List Artifact) (x : Artifact) :
    dictGet (buildSubgraphDict g arts) x =
      if x ∈ arts ∧ (dictGet g x).isSome = true then dictGet g x else none := by
  unfold buildSubgraphDict
  rw [dictGet_map_self]
  by_cases hx : x ∈ (arts.filter (fun y => (dictGet g y).isSome)).dedup
  · rw [if_pos hx]
    have hx2 : x ∈ arts ∧ (dictGet g x).isSome = true := by
      rw [List.mem_dedup, List.mem_filter] at hx
      exact hx
    rw [if_pos hx2]
    obtain ⟨v, hv⟩ := Option.isSome_iff_exists.mp hx2.2
    rw [hv]
    rfl
  · rw [if_neg hx, if_neg]
    intro h2
    apply hx
    rw [List.mem_dedup, List.mem_filter]
    exact h2

/-- Master characterization of `_create_dependency_subgraph`'s output: an
artifact is a key of the output iff it was visited by the traversal and is a
key of the input, and retained keys keep their original value lists. -/
lemma dictGet_subgraph (g : DependencyGraph) (root x : Artifact) :
    dictGet (createDependencySubgraph g root) x =
      if x ∈ finalVisited g root then dictGet g x else none := by
  obtain ⟨⟨s, v⟩, hrun⟩ := Option.isSome_iff_exists.mp (runSubgraphLoop_isSome g root)
  have hsv : ∀ y, y ∈ s ↔ y ∈ v := by
    apply subgraphLoop_subArts g _ _ _ _ _ _ hrun
    intro y
    simp
  unfold createDependencySubgraph finalVisited
  rw [hrun]
  show dictGet (buildSubgraphDict g s) x = if x ∈ v then dictGet g x else none
  rw [dictGet_buildSubgraphDict]
  by_cases hxv : x ∈ v
  · rw [if_pos hxv]
    by_cases hsome : (dictGet g x).isSome = true
    · rw [if_pos ⟨(hsv x).mpr hxv, hsome⟩]
    · rw [if_neg (fun h => hsome h.2)]
      cases hgx : dictGet g x with
      | none => rfl
      | some deps => rw [hgx] at hsome; simp at hsome
  · rw [if_neg hxv, if_neg (fun h => hxv ((hsv x).mp h.1))]

lemma finalVisited_iff_reaches (g : DependencyGraph) (root : Artifact) :
    ∀ x, x ∈ finalVisited g root ↔ Reaches g root x := by
  obtain ⟨⟨s, v⟩, hrun⟩ := Option.isSome_iff_exists.mp (runSubgraphLoop_isSome g root)
  have hfv : finalVisited g root = v := by
    unfold finalVisited
    rw [hrun]
  intro x
  rw [hfv]
  constructor
  · intro hx
    refine subgraphLoop_reaches g root _ _ _ _ _ _ hrun ?_ ?_ x hx
    · intro y hy
      have hyr : y = root := by simpa using hy
      rw [hyr]
      exact Reaches.refl
    · intro y hy
      simp at hy
  · intro hx
    induction hx with
    | refl => exact (subgraphLoop_mem_final g _ _ _ _ _ _ hrun).1 root (List.mem_cons_self ..)
    | step ha hget hd ih =>
      exact subgraphLoop_deps_closed g _ _ _ _ _ _ hrun _ ih (by simp) _ hget _ hd

lemma reaches_subgraph_of_reaches (g : DependencyGraph) (root : Artifact) :
    ∀ x, Reaches g root x → Reaches (createDependencySubgraph g root) root x := by
  intro x hx
  induction hx with
  | refl => exact Reaches.refl
  | step ha hget hd ih =>
    rename_i a deps d
    refine Reaches.step ih ?_ hd
    rw [dictGet_subgraph, if_pos ((finalVisited_iff_reaches g root a).mpr ha)]
    exact hget

lemma subgraph_idempotent (g : DependencyGraph) (root x : Artifact) :
    dictGet (createDependencySubgraph (createDependencySubgraph g root) root) x =
      dictGet (createDependencySubgraph g root) x := by
  rw [dictGet_subgraph (createDependencySubgraph g root) root x]
  by_cases hxv : x ∈ finalVisited (createDependencySubgraph g root) root
  · rw [if_pos hxv]
  · rw [if_neg hxv, dictGet_subgraph g root x, if_neg]
    intro hx2
    exact hxv ((finalVisited_iff_reaches _ root x).mpr
      (reaches_subgraph_of_reaches g root x ((finalVisited_iff_reaches g root x).mp hx2)))

/-! ## Claim theorems -/

/-- Claim C4: `create_dependency_graph` fails with InvalidRelationship when the
relationship is not "parent" or "dependency", and with MissingRootArtifact
when the relationship is "parent" and the root artifact is falsy; both
results hold for every filesystem argument `files`, so the errors are raised
before any file discovery or file read occurs. -/
theorem c4_validation (sqlDir : List Char) (files : List (List Char × List Char))
    (relationship : List Char) (root : Option Artifact) :
    (¬(relationship = ("parent").toList ∨ relationship = ("dependency").toList) →
      createDependencyGraph sqlDir files relationship root =
        Except.error BuildError.invalidRelationship) ∧
    (relationship = ("parent").toList → rootFalsy root = true →
      createDependencyGraph sqlDir files relationship root =
        Except.error BuildError.missingRootArtifact) := by
  constructor
  · intro h
    unfold createDependencyGraph
    rw [if_neg h]
  · intro h1 h2
    unfold createDependencyGraph
    rw [if_pos (Or.inl h1), if_pos ⟨h1, h2⟩]

/-- Claim C4 witness: a concrete invalid relationship and a concrete
"parent"-without-root call, with an arbitrary concrete filesystem. -/
theorem c4_validation_witness :
    createDependencyGraph (("sql").toList) exampleFiles (("update").toList) none =
      Except.error BuildError.invalidRelationship ∧
    createDependencyGraph (("sql").toList) exampleFiles (("parent").toList) none =
      Except.error BuildError.missingRootArtifact :=
  ⟨(c4_validation (("sql").toList) exampleFiles (("update").toList) none).1 (by decide),
   (c4_validation (("sql").toList) exampleFiles (("parent").toList) none).2 rfl rfl⟩

/-- Claim C9 (implicit): an empty-string root artifact is treated as no root
at all: with relationship "dependency" and root `some ""` the full unscoped
graph is returned (identical to the `none` result, no subgraph extraction),
and with relationship "parent" and root `some ""` the MissingRootArtifact
error is raised. -/
theorem c9_empty_root (sqlDir : List Char) (files : List (List Char × List Char)) :
    createDependencyGraph sqlDir files (("dependency").toList) (some []) =
      createDependencyGraph sqlDir files (("dependency").toList) none ∧
    createDependencyGraph sqlDir files (("parent").toList) (some []) =
      Except.error BuildError.missingRootArtifact := by
  constructor
  · unfold createDependencyGraph
    rw [if_pos (Or.inr rfl), if_pos (Or.inr rfl),
      if_neg (fun h => absurd h.1 (by decide)), if_neg (fun h => absurd h.1 (by decide))]
    cases hb : buildPathLookup sqlDir [] (files.map Prod.fst) with
    | error e => rfl
    | ok lkp => rfl
  · unfold createDependencyGraph
    rw [if_pos (Or.inl rfl), if_pos ⟨rfl, rfl⟩]

/-- Claim C10 (implicit): the Dependency Extractor does not guarantee
non-empty artifact identifiers: on the text `FROM ""` (keyword, whitespace,
two adjacent delimiters) the returned list contains the empty string. -/
theorem c10_empty_identifier :
    ([] : List Char) ∈ getDependencies (("FROM \"\"").toList) := by decide

/-- Claim C7: subgraph extraction is idempotent: extracting the subgraph of an
already-extracted subgraph with the same root yields an identical result
(equal as a dictionary: the same lookup result for every artifact, which for
these unique-key dictionaries is Python's `==`). -/
theorem c7_idempotent (g : DependencyGraph) (root x : Artifact) :
    dictGet (createDependencySubgraph (createDependencySubgraph g root) root) x =
      dictGet (createDependencySubgraph g root) x :=
  subgraph_idempotent g root x

/-- Claim C8 counterexample: the claim says the loop body runs at most once
per reachable artifact, so a frontier fuel of one iteration per reachable
artifact would always suffice.  In the self-loop graph `{a: [a]}` exactly one
artifact is reachable, yet after one iteration the frontier is again
nonempty (`a` was re-enqueued before being marked visited), and the loop
needs a second iteration: the body runs twice for `a`, as the final visited
list `[a, a]` records. -/
theorem c8_once_per_artifact_counterexample :
    subgraphLoop [((("a").toList), [(("a").toList)])] 1
        [(("a").toList)] [(("a").toList)] [] = none ∧
    subgraphLoop [((("a").toList), [(("a").toList)])] 2
        [(("a").toList)] [(("a").toList)] [] =
      some ([(("a").toList), (("a").toList), (("a").toList)],
        [(("a").toList), (("a").toList)]) :=
  ⟨rfl, rfl⟩

/-- Claim C8 (amended): the Subgraph Extractor terminates on every finite
graph, including cyclic ones: the visited-set guard lets each artifact enter
the frontier at most twice (once when first discovered, and at most once
more for an artifact whose own dependency list re-enqueues it before
`visited.add` runs), so the loop finishes within `subgraphFuel` = two
iterations per distinct mentioned artifact. -/
theorem c8_termination (g : DependencyGraph) (root : Artifact) :
    (runSubgraphLoop g root).isSome = true :=
  runSubgraphLoop_isSome g root

/-- Claim C6: the Subgraph Extractor's output contains exactly those keys of
the source graph that the traversal visited — so its key set is a subset of
the graph's keys — each mapped to its original, unmodified value list; a
visited artifact that is not a key of the source graph never appears as a
key of the output. -/
theorem c6_subgraph_output (g : DependencyGraph) (root : Artifact) :
    (∀ pr ∈ createDependencySubgraph g root, dictGet g pr.1 = some pr.2) ∧
    (∀ x, (dictGet (createDependencySubgraph g root) x).isSome = true ↔
      (x ∈ finalVisited g root ∧ (dictGet g x).isSome = true)) := by
  constructor
  · intro pr hpr
    obtain ⟨⟨s, v⟩, hrun⟩ := Option.isSome_iff_exists.mp (runSubgraphLoop_isSome g root)
    have hpr2 : pr ∈ buildSubgraphDict g s := by
      unfold createDependencySubgraph at hpr
      rw [hrun] at hpr
      exact hpr
    unfold buildSubgraphDict at hpr2
    obtain ⟨x, hx, hpx⟩ := List.mem_map.mp hpr2
    have hxs : (dictGet g x).isSome = true := (List.mem_filter.mp (List.mem_dedup.mp hx)).2
    obtain ⟨w, hw⟩ := Option.isSome_iff_exists.mp hxs
    rw [← hpx]
    show dictGet g x = some ((dictGet g x).getD [])
    rw [hw]
    rfl
  · intro x
    rw [dictGet_subgraph]
    by_cases hxv : x ∈ finalVisited g root
    · rw [if_pos hxv]
      exact ⟨fun h => ⟨hxv, h⟩, fun h => h.2⟩
    · rw [if_neg hxv]
      constructor
      · intro h; simp at h
      · intro h; exact absurd h.1 hxv

/-- Claim C2 counterexample: the resolver removes every occurrence of
`.table` (not just a trailing marker), and a removal can splice a new
`.table` occurrence together.  For the path `sql/x/ta/tableble.sql` under
scan directory `sql` the resolved artifact is `x.table`; reconstructing a
path from it and resolving again yields `x`, not an artifact-equivalent
result modulo the optional marker. -/
theorem c2_roundtrip_counterexample :
    convertPathToArtifact (("sql").toList)
        ((("sql").toList) ++ '/' :: (("x/ta/tableble.sql").toList)) =
      Except.ok (("x.table").toList) ∧
    convertPathToArtifact (("sql").toList)
        (reconstructPath (("sql").toList) (("x.table").toList)) =
      Except.ok (("x").toList) ∧
    (("x").toList : List Char) ≠ ("x.table").toList :=
  ⟨rfl, rfl, by decide⟩

/-- Claim C2 (amended): for a path `D ++ "/" ++ rel` strictly under the scan
directory whose relative part contains no newline, where the normalised
scan directory contains no regex metacharacter other than `.` (the code
interpolates `str(Path(sql_dir))` unescaped into the `re.findall` pattern,
so a metacharacter such as `+` makes even a path literally under `D` fail
to resolve) and the `Path(...)` normalisation of the two resolved inputs
merely normalises the directory part (no `//`, `/./` or trailing-slash
collapse inside the relative part), if the resolved artifact contains no
`.table` and no `.sql` occurrence (which the counterexample shows cannot be
dropped, since the global `str.replace` calls can both splice new
occurrences and strip non-trailing ones), then resolving the path
reconstructed from the artifact (`.` → `/`, append `.sql`, prefix `D/`)
yields the same artifact: the near-round-trip holds modulo the lossy
`.table` marker. -/
theorem c2_roundtrip (D rel : List Char)
    (_hsafe : dirRegexSafe (normPath D) = true)
    (hnl : ∀ c ∈ rel, c ≠ '\n')
    (htable : containsSub ('.' :: tableTail) (resolveRel rel) = false)
    (hsql : containsSub ('.' :: sqlTail) (resolveRel rel) = false)
    (hnorm1 : normPath (D ++ '/' :: rel) = normPath D ++ '/' :: rel)
    (hnorm2 : normPath (reconstructPath D (resolveRel rel)) =
      normPath D ++ '/' :: (charReplace '.' '/' (resolveRel rel) ++ (".sql").toList)) :
    convertPathToArtifact D (D ++ '/' :: rel) = Except.ok (resolveRel rel) ∧
    convertPathToArtifact D (reconstructPath D (resolveRel rel)) =
      Except.ok (resolveRel rel) :=
  ⟨convert_prefix_eq D rel hnl hnorm1,
   convert_reconstruct_eq D (resolveRel rel) (resolveRel_slash_free rel)
     (resolveRel_nl_free rel hnl) htable hsql hnorm2⟩

/-- Claim C2 witness: the spec's own scenario shape, a relative path with a
trailing `.table` marker. -/
theorem c2_roundtrip_witness :
    convertPathToArtifact (("sql").toList)
        ((("sql").toList) ++ '/' :: (("s/n.table.sql").toList)) =
      Except.ok (resolveRel (("s/n.table.sql").toList)) ∧
    convertPathToArtifact (("sql").toList)
        (reconstructPath (("sql").toList) (resolveRel (("s/n.table.sql").toList))) =
      Except.ok (resolveRel (("s/n.table.sql").toList)) :=
  c2_roundtrip (("sql").toList) (("s/n.table.sql").toList)
    (by decide) (by decide) (by decide) (by decide) (by decide) (by decide)

/-- Claim C3 counterexample: `_convert_path_to_artifact` searches for
`sql_dir + "/"` anywhere in the path, not as a leading prefix, so a path
that is not located under the scan directory can still resolve without
error: `a/sql/x.sql` is not under `sql` yet resolves to `x`. -/
theorem c3_prefix_counterexample :
    convertPathToArtifact (("sql").toList) (("a/sql/x.sql").toList) =
      Except.ok (("x").toList) ∧
    pathIsUnder (("sql").toList) (("a/sql/x.sql").toList) = false :=
  ⟨rfl, rfl⟩

/-- Claim C3 (amended): the resolver raises its PathResolutionError exactly
when the unescaped regex pattern `str(Path(sql_dir)) + "/"` — in which `.`
is a wildcard for any non-newline character — matches nowhere inside the
`Path`-normalised given path; in particular, when the normalised scan
directory contains no regex metacharacter other than `.`, every path
located under the scan directory (leading-prefix sense, after `Path`
normalisation of both) resolves without error, but — as the counterexample
shows — some paths not under the scan directory also resolve without
error, because the pattern is searched anywhere in the path rather than
anchored as a leading prefix. -/
theorem c3_resolution_error (d p : List Char)
    (_hsafe : dirRegexSafe (normPath d) = true) :
    (convertPathToArtifact d p = Except.error () ↔
      containsMatch (normPath d ++ ['/']) (normPath p) = false) ∧
    (pathIsUnder d p = true → convertPathToArtifact d p ≠ Except.error ()) := by
  have hiff : convertPathToArtifact d p = Except.error () ↔
      containsMatch (normPath d ++ ['/']) (normPath p) = false := by
    constructor
    · intro h
      cases hfc : findCapture (normPath d ++ ['/']) (normPath p) with
      | none => exact (findCapture_none_iff _ (by simp) (normPath p)).mp hfc
      | some c =>
        unfold convertPathToArtifact at h
        rw [hfc] at h
        simp at h
    · intro h
      have hfc : findCapture (normPath d ++ ['/']) (normPath p) = none :=
        (findCapture_none_iff _ (by simp) (normPath p)).mpr h
      unfold convertPathToArtifact
      rw [hfc]
  refine ⟨hiff, ?_⟩
  intro h hcontra
  have hfalse := hiff.mp hcontra
  unfold pathIsUnder at h
  obtain ⟨t, ht⟩ := (isPrefixOf_iff (normPath d ++ ['/']) (normPath p)).mp h
  have hcm : containsMatch (normPath d ++ ['/']) (normPath p) = true := by
    rw [ht]
    exact containsMatch_prefix_text _ t (by simp)
  rw [hcm] at hfalse
  simp at hfalse

/-- Claim C3 witness: a concrete path under the scan directory resolves
without error. -/
theorem c3_resolution_error_witness :
    convertPathToArtifact (("sql").toList) (("sql/a.sql").toList) ≠ Except.error () :=
  (c3_resolution_error (("sql").toList) (("sql/a.sql").toList) (by decide)).2 (by decide)

/-- Claim C5: building in "dependency" orientation with no root artifact maps
every discovered artifact (every key of the path lookup) to the dependency
list extracted from its file's text, and every discovered artifact becomes a
key of the result even when that list is empty (`dictGet` returns `some`
regardless of the list's value). -/
theorem c5_dependency_build (sqlDir : List Char) (files : List (List Char × List Char))
    (lkp : List (Artifact × List Char))
    (hlkp : buildPathLookup sqlDir [] (files.map Prod.fst) = Except.ok lkp) :
    ∃ g, createDependencyGraph sqlDir files (("dependency").toList) none = Except.ok g ∧
      ∀ a p, (a, p) ∈ lkp → dictGet g a = some (getDependencies (fileText files p)) := by
  have hg : createDependencyGraph sqlDir files (("dependency").toList) none =
      Except.ok (lkp.foldl (fun acc ap =>
        dictInsert ap.1 (getDependencies (fileText files ap.2)) acc) []) := by
    unfold createDependencyGraph
    rw [if_pos (Or.inr rfl), if_neg (fun h => absurd h.1 (by decide)), hlkp]
    show Except.ok (lkp.foldl (fun acc ap => createDependencyGraphHelper ap.1
        (getDependencies (fileText files ap.2)) acc (("dependency").toList)) []) = _
    simp only [helper_dependency]
  refine ⟨_, hg, ?_⟩
  intro a p hmem
  have hnd : (lkp.map Prod.fst).Nodup :=
    buildPathLookup_keys_nodup sqlDir _ [] lkp (by simp) hlkp
  exact dictGet_foldl_mem (fun ap => getDependencies (fileText files ap.2)) lkp [] hnd a p hmem

/-- Claim C5 witness: the spec §8 scenario filesystem. -/
theorem c5_dependency_build_witness :
    ∃ g, createDependencyGraph (("sql").toList) exampleFiles
        (("dependency").toList) none = Except.ok g ∧
      ∀ a p, (a, p) ∈ exampleLkp →
        dictGet g a = some (getDependencies (fileText exampleFiles p)) :=
  c5_dependency_build (("sql").toList) exampleFiles exampleLkp (by rfl)

/-- Claim C1 counterexample: the regex's two delimiter character classes are
independent, so an identifier opened with `"` and closed with a backtick is
matched.  On `FROM "a\x60` the extractor returns `a`, yet `a` is not
enclosed in a pair of matching delimiters anywhere in that text. -/
theorem c1_matching_delimiters_counterexample :
    ((("a").toList) ∈ getDependencies (("FROM \"a`").toList)) ∧
      ¬ specPreceded true (("FROM \"a`").toList) (("a").toList) := by
  constructor
  · decide
  · rintro ⟨pre, kw, ws, d1, d2, post, ht, hb, hkw, hws, hwsall, hd1, hd2, hsame⟩
    have hlen := congrArg List.length ht
    rw [show ((("FROM \"a`").toList : List Char)).length = 8 from rfl] at hlen
    simp only [List.length_append, List.length_cons] at hlen
    rw [show ((("a").toList : List Char)).length = 1 from rfl] at hlen
    have hwsl : 1 ≤ ws.length := by
      cases ws with
      | nil => exact absurd rfl hws
      | cons a b => simp
    have hk4 : kw.length = 4 := by
      have hm : kw.length = (kw.map Char.toUpper).length := (List.length_map ..).symm
      simp only [keywordList, List.mem_cons, List.not_mem_nil, or_false] at hkw
      rcases hkw with h | h | h | h | h | h <;> rw [h] at hm
      · exact hm
      · exfalso
        have hm2 : kw.length = 5 := hm
        omega
      · exact hm
      · exact hm
      · exfalso
        have hm2 : kw.length = 6 := hm
        omega
      · exfalso
        have hm2 : kw.length = 6 := hm
        omega
    have hpre : pre = [] := List.eq_nil_of_length_eq_zero (by omega)
    have hpost : post = [] := List.eq_nil_of_length_eq_zero (by omega)
    obtain ⟨w, hw⟩ := List.length_eq_one.mp (show ws.length = 1 by omega)
    subst hpre hpost hw
    have ht2 : (['F', 'R', 'O', 'M'] : List Char) ++ [' ', '"', 'a', '`'] =
        kw ++ ([w] ++ (d1 :: ((("a").toList) ++ (d2 :: [])))) := by
      rw [show ((['F', 'R', 'O', 'M'] : List Char) ++ [' ', '"', 'a', '`']) =
        (("FROM \"a`").toList : List Char) from rfl, ht]
      simp [List.append_assoc]
    obtain ⟨hkw4, hrest⟩ := List.append_inj ht2 (by rw [hk4]; rfl)
    have hrest2 : ([' ', '"', 'a', '`'] : List Char) = w :: d1 :: 'a' :: d2 :: [] := hrest
    injection hrest2 with e1 hrest2
    injection hrest2 with e2 hrest2
    injection hrest2 with e3 hrest2
    injection hrest2 with e4 hrest2
    rw [← e2, ← e4] at hsame
    exact absurd (hsame rfl) (by decide)

/-- Claim C1 (amended): for every input text the extractor's result contains
no duplicates, and every element was preceded in the text by one of the six
keywords FROM, TABLE, INTO, JOIN, UPDATE, DELETE (as a whole word,
case-insensitively) followed by whitespace and enclosed between two
delimiter characters — but, as the counterexample shows, each delimiter is
independently `"` or a backtick, and the pair need not match. -/
theorem c1_extractor_sound (t : List Char) :
    (getDependencies t).Nodup ∧
      ∀ e ∈ getDependencies t, specPreceded false t e := by
  constructor
  · exact List.nodup_dedup _
  · intro e he
    exact scanAux_sound t.length false t [] (fun _ => Or.inl rfl) e (List.mem_dedup.mp he)

/-- Claim C1 witness: the mixed-delimiter text, whose capture `a` satisfies
the amended (delimiters-need-not-match) property. -/
theorem c1_extractor_sound_witness :
    specPreceded false (("FROM \"a`").toList) (("a").toList) :=
  (c1_extractor_sound (("FROM \"a`").toList)).2 (("a").toList) (by decide)
